import Mathlib

/-!
Verification of the FHE key-value store (KVStore_commented.py and
KVStore_4bit.py).

The source implements a fixed-capacity, branch-free key-value table:
each row is an occupancy flag, a list of key chunks and a list of value
chunks, where a chunk is a CHUNK_SIZE-bit unsigned integer.  The three
table algorithms (insert, replace, query) are expressed as whole-table
arithmetic over these chunks, using a lookup table for masked selection.

This file shallowly embeds the source:
- numpy int64 arrays become lists of naturals (all quantities in the
  program are nonnegative and far below 2 to the 63, so no overflow is
  reachable; the int subtraction used by the equality test is modelled
  on Int);
- the per-row loops become recursion over the row list;
- the module constants NUMBER_OF_ENTRIES, NUMBER_OF_KEY_CHUNKS and
  NUMBER_OF_VALUE_CHUNKS enter the algorithms only as the shapes of the
  arrays, so the embedding takes them from the lengths of the arguments;
  the two source files instantiate them with 5 rows and 8 or 1 chunks.
-/

/-- The number of bits in each chunk (CHUNK_SIZE = 4 in both source files). -/
def CHUNK_SIZE : Nat := 4

/-- The number of bits in a key (KEY_SIZE = 32 in KVStore_commented.py). -/
def KEY_SIZE : Nat := 32

/-- The number of bits in a value (VALUE_SIZE = 32 in KVStore_commented.py). -/
def VALUE_SIZE : Nat := 32

/-- Fuel-driven helper for the binary digit count: with enough fuel,
`bitLenAux fuel n` is the number of binary digits of `n` (0 for 0). -/
def bitLenAux : Nat → Nat → Nat
  | _, 0 => 0
  | 0, _ + 1 => 0
  | fuel + 1, n + 1 => bitLenAux fuel ((n + 1) / 2) + 1

/-- Number of binary digits of `n` (0 for 0): the length of the string
`np.binary_repr(n)` is `max 1 (bitLen n)` for nonnegative `n`. -/
def bitLen (n : Nat) : Nat := bitLenAux n n

/-- Model of `np.binary_repr(n, width)` for nonnegative `n`: the big-endian
list of binary digits of `n`, zero-padded on the left to `width` digits.
When `n` does not fit in `width` bits, numpy does NOT truncate: it returns
the full binary representation (longer than `width`), which this model
reproduces via the `max`. -/
def binaryRepr (n width : Nat) : List Nat :=
  let L := max width (max 1 (bitLen n))
  (List.range L).map (fun i => n / 2 ^ (L - 1 - i) % 2)

/-- The block split in `encode`:
`blocks = [binary_repr[i:i+CHUNK_SIZE] for i in range(0, len(binary_repr), CHUNK_SIZE)]`
with CHUNK_SIZE = 4; consecutive blocks of 4 digits, the last one possibly
shorter. -/
def toBlocks : List Nat → List (List Nat)
  | [] => []
  | [a] => [[a]]
  | [a, b] => [[a, b]]
  | [a, b, c] => [[a, b, c]]
  | a :: b :: c :: d :: rest => [a, b, c, d] :: toBlocks rest

/-- Model of Python `int(block, 2)`: the value of a big-endian binary digit
string. -/
def intBase2 (block : List Nat) : Nat :=
  block.foldl (fun acc b => 2 * acc + b) 0

/-- `encode(number, width)` from the source: binary representation of
`number` padded to `width` bits, split into CHUNK_SIZE-bit blocks, each
block read as an integer. -/
def encode (number width : Nat) : List Nat :=
  (toBlocks (binaryRepr number width)).map intBase2

/-- `encode_key` from the source. -/
def encode_key (number : Nat) : List Nat := encode number KEY_SIZE

/-- `encode_value` from the source. -/
def encode_value (number : Nat) : List Nat := encode number VALUE_SIZE

/-- `decode(encoded_number)` from the source:
`result += 2 ** (CHUNK_SIZE * i) * encoded_number[len - i - 1]` for
`i in range(len)`. -/
def decode (encoded_number : List Nat) : Nat :=
  (List.range encoded_number.length).foldl
    (fun result i =>
      result + 2 ^ (CHUNK_SIZE * i) * encoded_number.getD (encoded_number.length - i - 1) 0)
    0

/-- One row of the state table: the occupancy flag, the key chunks and the
value chunks (the three column groups FLAG, KEY, VALUE of the numpy state
array). -/
structure Row where
  flag : Nat
  key : List Nat
  value : List Nat
deriving DecidableEq

/-- `keep_selected_lut` from the source (`lut2` in KVStore_4bit.py): 16
zeros followed by the identity on 0..15. -/
def keep_selected_lut : List Nat := List.replicate 16 0 ++ List.range 16

/-- A lookup `keep_selected_lut[sel * (2 ** CHUNK_SIZE) + c]`, the
table-based masked selection applied to one chunk. -/
def maskChunk (sel c : Nat) : Nat :=
  keep_selected_lut.getD (sel * 2 ^ CHUNK_SIZE + c) 0

/-- The selection scan of `_insert_impl`: walking the flags with the
`found` accumulator, row `i` gets
`is_selected = ((found * 2) + flags[i] == 0)` and `found += is_selected`. -/
def insertSelect : Nat → List Nat → List Nat
  | _, [] => []
  | found, f :: fs =>
    let packed := found * 2 + f
    let s : Nat := if packed = 0 then 1 else 0
    s :: insertSelect (found + s) fs

/-- The per-row effect of `new_state = state + state_update` in
`_insert_impl`: the flag gains the selection bit, and each key/value chunk
gains `keep_selected_lut[sel * 16 + chunk]`. -/
def insertRowUpd (s : Nat) (key value : List Nat) (r : Row) : Row :=
  { flag := r.flag + s
    key := List.zipWith (fun rc kc => rc + maskChunk s kc) r.key key
    value := List.zipWith (fun rc vc => rc + maskChunk s vc) r.value value }

/-- `_insert_impl(state, key, value)` from the source. -/
def _insert_impl (state : List Row) (key value : List Nat) : List Row :=
  List.zipWith (fun r s => insertRowUpd s key value r) state
    (insertSelect 0 (state.map Row.flag))

/-- One summand of the row selector of replace/query:
`(keys - key) == 0` on int64 entries, as a 0/1 indicator. -/
def eqChunk (a b : Nat) : Nat :=
  if (a : Int) - (b : Int) = 0 then 1 else 0

/-- The per-row key selector of `_replace_impl` and `_query_impl`:
`np.sum((keys - key) == 0, axis=1) == NUMBER_OF_KEY_CHUNKS`.  In the
source NUMBER_OF_KEY_CHUNKS is exactly the length of the encoded key
array, so the embedding reads it off the `key` argument. -/
def matchSel (rowKey key : List Nat) : Nat :=
  if (List.zipWith eqChunk rowKey key).sum = key.length then 1 else 0

/-- `_replace_impl(state, key, value)` from the source: flags and keys are
kept, and each value chunk becomes
`keep_selected_lut[(1 - sel) * 16 + old] + keep_selected_lut[sel * 16 + new]`
(kept_values + set_value). -/
def _replace_impl (state : List Row) (key value : List Nat) : List Row :=
  state.map (fun r =>
    let sel := matchSel r.key key
    { flag := r.flag
      key := r.key
      value := List.zipWith (fun rc vc => maskChunk (1 - sel) rc + maskChunk sel vc)
        r.value value })

/-- `np.sum(value_selection, axis=0)`: the chunk-wise sum of a list of
rows of `nv` chunks each. -/
def sumRows (nv : Nat) (rows : List (List Nat)) : List Nat :=
  rows.foldr (fun r acc => List.zipWith (fun a b => a + b) r acc) (List.replicate nv 0)

/-- `_query_impl(state, key)` from the source: the found count
`np.sum(selection)` paired with the chunk-wise sum over rows of
`keep_selected_lut[sel * 16 + value]`.  `nv` is NUMBER_OF_VALUE_CHUNKS,
the chunk count of the value columns. -/
def _query_impl (nv : Nat) (state : List Row) (key : List Nat) : Nat × List Nat :=
  ((state.map (fun r => matchSel r.key key)).sum,
   sumRows nv (state.map (fun r => r.value.map (fun vc => maskChunk (matchSel r.key key) vc))))

/-- A fresh all-zero row (one row of `np.zeros(STATE_SHAPE)`). -/
def zeroRow (nk nv : Nat) : Row :=
  ⟨0, List.replicate nk 0, List.replicate nv 0⟩

/-- The freshly initialized state `np.zeros(STATE_SHAPE)`: `cap` all-zero
rows of `nk` key chunks and `nv` value chunks. -/
def emptyState (cap nk nv : Nat) : List Row :=
  List.replicate cap (zeroRow nk nv)

/-- `KeyValueDatabase.insert`: encode the key and the value, run the
insert circuit on the current state. -/
def db_insert (state : List Row) (k v : Nat) : List Row :=
  _insert_impl state (encode_key k) (encode_value v)

/-- `KeyValueDatabase.query`: encode the key, run the query circuit, and
map a zero found count to `None`, otherwise decode the value chunks. -/
def db_query (nv : Nat) (state : List Row) (k : Nat) : Option Nat :=
  let result := _query_impl nv state (encode_key k)
  if result.fst = 0 then none else some (decode result.snd)

/-- Modelled from the spec: the arithmetic form of `masked_select`
(`selector * value`), stated in section 4.2 as the reference the lookup
table form must agree with. -/
def masked_select (selector value : Nat) : Nat := selector * value

/-- Modelled from the spec: the per-row equality indicator of sections
4.4 and 4.5, 1 iff the key chunks of the row equal the given key chunks. -/
def specSel (r : Row) (key : List Nat) : Nat :=
  if r.key = key then 1 else 0

/-- Modelled from the spec: the number of rows whose key chunks all equal
the given key chunks (regardless of the flag). -/
def specFound (state : List Row) (key : List Nat) : Nat :=
  (state.filter (fun r => decide (r.key = key))).length

/-- Modelled from the spec: the chunk-wise sum over all rows of
`masked_select(sel_i, row.value)`. -/
def specValue (nv : Nat) (state : List Row) (key : List Nat) : List Nat :=
  sumRows nv (state.map (fun r => r.value.map (fun vc => masked_select (specSel r key) vc)))

/-! ### Properties of the masking lookup table -/

theorem maskChunk_zero {c : Nat} (hc : c < 16) : maskChunk 0 c = 0 := by
  revert c
  decide

theorem maskChunk_one {c : Nat} (hc : c < 16) : maskChunk 1 c = c := by
  revert c
  decide

theorem maskChunk_sel_zero {s : Nat} (hs : s = 0 ∨ s = 1) : maskChunk s 0 = 0 := by
  rcases hs with rfl | rfl <;> rfl

theorem maskChunk_arith {s c : Nat} (hs : s = 0 ∨ s = 1) (hc : c < 16) :
    maskChunk s c = s * c := by
  rcases hs with rfl | rfl
  · rw [maskChunk_zero hc, Nat.zero_mul]
  · rw [maskChunk_one hc, Nat.one_mul]

/-! ### Properties of the row key selector -/

theorem eqChunk_eq (a b : Nat) : eqChunk a b = if a = b then 1 else 0 := by
  simp [eqChunk, sub_eq_zero, Nat.cast_inj]

theorem eqChunkSum_le : ∀ (a b : List Nat), (List.zipWith eqChunk a b).sum ≤ b.length
  | [], _ => by simp
  | _ :: _, [] => by simp
  | a :: as, b :: bs => by
    have h1 : eqChunk a b ≤ 1 := by rw [eqChunk_eq]; split <;> omega
    have h2 := eqChunkSum_le as bs
    simp only [List.zipWith_cons_cons, List.sum_cons, List.length_cons]
    omega

theorem eqChunkSum_eq_iff : ∀ (a b : List Nat), a.length = b.length →
    ((List.zipWith eqChunk a b).sum = b.length ↔ a = b)
  | [], [], _ => by simp
  | [], _ :: _, h => by simp at h
  | _ :: _, [], h => by simp at h
  | a :: as, b :: bs, h => by
    have hlen : as.length = bs.length := by simpa using h
    have hle := eqChunkSum_le as bs
    have hrec := eqChunkSum_eq_iff as bs hlen
    rw [List.zipWith_cons_cons, List.sum_cons, List.length_cons, eqChunk_eq]
    constructor
    · intro hsum
      rcases eq_or_ne a b with rfl | hab
      · rw [if_pos rfl] at hsum
        rw [hrec.mp (by omega)]
      · rw [if_neg hab] at hsum
        exact absurd hsum (by omega)
    · intro heq
      injection heq with h1 h2
      subst h1
      subst h2
      have := hrec.mpr rfl
      rw [if_pos rfl]
      omega

theorem matchSel_eq {a b : List Nat} (h : a.length = b.length) :
    matchSel a b = if a = b then 1 else 0 := by
  unfold matchSel
  rcases eq_or_ne a b with rfl | hab
  · rw [if_pos ((eqChunkSum_eq_iff a a h).mpr rfl), if_pos rfl]
  · rw [if_neg (fun hc => hab ((eqChunkSum_eq_iff a b h).mp hc)), if_neg hab]

theorem matchSel_self (a : List Nat) : matchSel a a = 1 := by
  rw [matchSel_eq rfl, if_pos rfl]

theorem matchSel_cases (a b : List Nat) : matchSel a b = 0 ∨ matchSel a b = 1 := by
  unfold matchSel
  split
  · exact Or.inr rfl
  · exact Or.inl rfl

/-- C7: for every selector in 0/1 and every chunk value below 2 to the
CHUNK_SIZE, the lookup-table form of masked selection (indexing the
32-entry table keep_selected_lut at selector * 16 + value) agrees with
the arithmetic form selector * value. -/
theorem masked_select_lut_equiv (selector value : Nat)
    (hs : selector = 0 ∨ selector = 1) (hv : value < 2 ^ CHUNK_SIZE) :
    maskChunk selector value = masked_select selector value := by
  have hv16 : value < 16 := hv
  rw [maskChunk_arith hs hv16]
  rfl

theorem masked_select_lut_equiv_witness :
    (1 = 0 ∨ 1 = 1) ∧ 13 < 2 ^ CHUNK_SIZE ∧ maskChunk 1 13 = masked_select 1 13 :=
  ⟨Or.inr rfl, by decide, masked_select_lut_equiv 1 13 (Or.inr rfl) (by decide)⟩

/-! ### Properties of the insert selection scan -/

theorem insertSelect_cons (found f : Nat) (fs : List Nat) :
    insertSelect found (f :: fs) =
      (if found * 2 + f = 0 then 1 else 0) ::
        insertSelect (found + if found * 2 + f = 0 then 1 else 0) fs := rfl

theorem insertSelect_pos : ∀ (flags : List Nat) (found : Nat), found ≠ 0 →
    insertSelect found flags = List.replicate flags.length 0
  | [], _, _ => rfl
  | f :: fs, found, h => by
    have hp : found * 2 + f ≠ 0 := by omega
    rw [insertSelect_cons, if_neg hp, Nat.add_zero,
      insertSelect_pos fs found h, List.length_cons, List.replicate_succ]

theorem insertSelect_nofree : ∀ (flags : List Nat), (∀ f ∈ flags, f ≠ 0) →
    ∀ found, insertSelect found flags = List.replicate flags.length 0
  | [], _, _ => rfl
  | f :: fs, h, found => by
    have hf : f ≠ 0 := h f (List.mem_cons_self f fs)
    have hp : found * 2 + f ≠ 0 := by omega
    rw [insertSelect_cons, if_neg hp, Nat.add_zero,
      insertSelect_nofree fs (fun x hx => h x (List.mem_cons_of_mem f hx)) found,
      List.length_cons, List.replicate_succ]

/-! ### Per-row effect of the insert update -/

theorem zipWith_mask_zero : ∀ (l1 l2 : List Nat), l1.length = l2.length →
    (∀ c ∈ l2, c < 16) →
    List.zipWith (fun rc kc => rc + maskChunk 0 kc) l1 l2 = l1
  | [], [], _, _ => rfl
  | [], _ :: _, h, _ => by simp at h
  | _ :: _, [], h, _ => by simp at h
  | x :: xs, y :: ys, h, hb => by
    rw [List.zipWith_cons_cons, maskChunk_zero (hb y (List.mem_cons_self y ys)),
      Nat.add_zero,
      zipWith_mask_zero xs ys (by simpa using h) (fun c hc => hb c (List.mem_cons_of_mem y hc))]

theorem zipWith_mask_one : ∀ (l2 : List Nat), (∀ c ∈ l2, c < 16) →
    List.zipWith (fun rc kc => rc + maskChunk 1 kc) (List.replicate l2.length 0) l2 = l2
  | [], _ => rfl
  | y :: ys, hb => by
    rw [List.length_cons, List.replicate_succ, List.zipWith_cons_cons,
      maskChunk_one (hb y (List.mem_cons_self y ys)), Nat.zero_add,
      zipWith_mask_one ys (fun c hc => hb c (List.mem_cons_of_mem y hc))]

theorem insertRowUpd_zero {key value : List Nat} {r : Row}
    (hk : ∀ c ∈ key, c < 16) (hv : ∀ c ∈ value, c < 16)
    (hkl : r.key.length = key.length) (hvl : r.value.length = value.length) :
    insertRowUpd 0 key value r = r := by
  cases r with
  | mk f k v =>
    simp only [insertRowUpd, Nat.add_zero]
    rw [zipWith_mask_zero k key hkl hk, zipWith_mask_zero v value hvl hv]

theorem insertRowUpd_one {key value : List Nat} {r : Row}
    (hk : ∀ c ∈ key, c < 16) (hv : ∀ c ∈ value, c < 16)
    (hf : r.flag = 0) (hrk : r.key = List.replicate key.length 0)
    (hrv : r.value = List.replicate value.length 0) :
    insertRowUpd 1 key value r = Row.mk 1 key value := by
  cases r with
  | mk f k v =>
    simp only [insertRowUpd]
    simp only [Row.flag] at hf
    simp only [Row.key] at hrk
    simp only [Row.value] at hrv
    rw [hf, hrk, hrv, zipWith_mask_one key hk, zipWith_mask_one value hv]

theorem insert_rows_unchanged {key value : List Nat}
    (hk : ∀ c ∈ key, c < 16) (hv : ∀ c ∈ value, c < 16) :
    ∀ (rows : List Row),
    (∀ r ∈ rows, r.key.length = key.length ∧ r.value.length = value.length) →
    List.zipWith (fun r s => insertRowUpd s key value r) rows
      (List.replicate rows.length 0) = rows
  | [], _ => rfl
  | r :: rest, h => by
    obtain ⟨hkl, hvl⟩ := h r (List.mem_cons_self r rest)
    rw [List.length_cons, List.replicate_succ, List.zipWith_cons_cons,
      insertRowUpd_zero hk hv hkl hvl,
      insert_rows_unchanged hk hv rest (fun x hx => h x (List.mem_cons_of_mem r hx))]

/-- C4: insert on a table in which every row has flag = 1 returns the
table unchanged (a silent no-op, with no error signalled), for every
in-range key and value whose chunk counts match the rows. -/
theorem insert_full_noop (state : List Row) (key value : List Nat)
    (hflag : ∀ r ∈ state, r.flag = 1)
    (hk : ∀ c ∈ key, c < 16) (hv : ∀ c ∈ value, c < 16)
    (hlen : ∀ r ∈ state, r.key.length = key.length ∧ r.value.length = value.length) :
    _insert_impl state key value = state := by
  unfold _insert_impl
  rw [insertSelect_nofree (state.map Row.flag)
    (by
      intro f hf
      obtain ⟨r, hr, rfl⟩ := List.mem_map.mp hf
      rw [hflag r hr]
      exact Nat.one_ne_zero) 0]
  rw [List.length_map]
  exact insert_rows_unchanged hk hv state hlen

/-- Witness for C4, covering the second sentence of the claim: after five
inserts of distinct keys into the empty capacity-5 table (the 4-bit
instantiation), every flag is 1 and one further insert leaves the table
unchanged. -/
theorem insert_full_noop_witness :
    (let st := _insert_impl (_insert_impl (_insert_impl (_insert_impl (_insert_impl
      (emptyState 5 1 1) [1] [1]) [2] [2]) [3] [3]) [4] [4]) [5] [5]
     _insert_impl st [6] [7] = st) :=
  insert_full_noop _ [6] [7] (by decide) (by decide) (by decide) (by decide)

theorem insertSelect_zero_head (fs : List Nat) :
    insertSelect 0 (0 :: fs) = 1 :: List.replicate fs.length 0 := by
  have h : insertSelect 0 (0 :: fs) = 1 :: insertSelect 1 fs := rfl
  rw [h, insertSelect_pos fs 1 one_ne_zero]

/-- C1 (amended): on a table whose flags are all 0 or 1, whose chunks are
in range, and whose first flag-0 row (at index j) has all-zero key and
value chunks, inserting an in-range key and value of matching chunk
counts replaces exactly that row with (flag 1, key, value) and leaves
every other row unchanged. -/
theorem insert_first_free : ∀ (state : List Row) (key value : List Nat) (j : Nat),
    j < state.length →
    (∀ r ∈ state, r.flag ≤ 1) →
    (∀ r ∈ state, (∀ c ∈ r.key, c < 16) ∧ (∀ c ∈ r.value, c < 16)) →
    (∀ c ∈ key, c < 16) →
    (∀ c ∈ value, c < 16) →
    (∀ r ∈ state, r.key.length = key.length ∧ r.value.length = value.length) →
    (state.getD j (zeroRow key.length value.length)).flag = 0 →
    (∀ r ∈ state.take j, r.flag ≠ 0) →
    ((state.getD j (zeroRow key.length value.length)).key = List.replicate key.length 0 ∧
      (state.getD j (zeroRow key.length value.length)).value = List.replicate value.length 0) →
    _insert_impl state key value = state.set j (Row.mk 1 key value)
  | [], key, value, j, hj, _, _, _, _, _, _, _, _ => absurd hj (by simp)
  | r :: rest, key, value, 0, hj, hflags, hchunks, hk, hv, hlen, hfree, hbefore, hzero => by
    have hr0 : r.flag = 0 := by simpa using hfree
    have hrk : r.key = List.replicate key.length 0 := by simpa using hzero.1
    have hrv : r.value = List.replicate value.length 0 := by simpa using hzero.2
    unfold _insert_impl
    rw [List.map_cons, hr0, insertSelect_zero_head, List.zipWith_cons_cons,
      insertRowUpd_one hk hv hr0 hrk hrv, List.length_map,
      insert_rows_unchanged hk hv rest (fun x hx => hlen x (List.mem_cons_of_mem r hx))]
    rfl
  | r :: rest, key, value, j + 1, hj, hflags, hchunks, hk, hv, hlen, hfree, hbefore, hzero => by
    have hfN : r.flag ≠ 0 := hbefore r (by simp [List.take_succ_cons])
    have hcond : 0 * 2 + r.flag ≠ 0 := by omega
    have hmem : r ∈ r :: rest := List.mem_cons_self r rest
    unfold _insert_impl
    rw [List.map_cons, insertSelect_cons, if_neg hcond, Nat.add_zero,
      List.zipWith_cons_cons,
      insertRowUpd_zero hk hv (hlen r hmem).1 (hlen r hmem).2]
    exact congrArg (fun t => r :: t)
      (insert_first_free rest key value j (by simpa using hj)
        (fun x hx => hflags x (List.mem_cons_of_mem r hx))
        (fun x hx => hchunks x (List.mem_cons_of_mem r hx))
        hk hv
        (fun x hx => hlen x (List.mem_cons_of_mem r hx))
        (by simpa using hfree)
        (fun x hx => hbefore x (by simp [List.take_succ_cons, hx]))
        ⟨by simpa using hzero.1, by simpa using hzero.2⟩)

theorem insert_first_free_witness :
    _insert_impl [Row.mk 0 [0] [0]] [3] [7] =
      List.set [Row.mk 0 [0] [0]] 0 (Row.mk 1 [3] [7]) :=
  insert_first_free [Row.mk 0 [0] [0]] [3] [7] 0 (by decide) (by decide) (by decide)
    (by decide) (by decide) (by decide) (by decide) (by decide) (by decide)

/-- C1 counterexample: a table whose flags are all 0 or 1 and whose chunks
are in range, but whose (first) flag-0 row carries a leftover nonzero key
chunk 5.  Inserting key chunk 3 ADDS 3 to the leftover 5: the selected
row ends with key chunk 8, not the given key chunk 3, because the insert
writes by addition (new_state = state + state_update). -/
theorem insert_first_free_cex :
    _insert_impl [Row.mk 0 [5] [0]] [3] [7] = [Row.mk 1 [8] [7]] ∧
      Row.mk 1 [8] [7] ≠ Row.mk 1 [3] [7] := by
  decide

/-! ### Per-row effect of the replace update -/

theorem replace_chunks_set : ∀ (rv vv : List Nat), rv.length = vv.length →
    (∀ c ∈ rv, c < 16) → (∀ c ∈ vv, c < 16) →
    List.zipWith (fun rc vc => maskChunk 0 rc + maskChunk 1 vc) rv vv = vv
  | [], [], _, _, _ => rfl
  | [], _ :: _, h, _, _ => by simp at h
  | _ :: _, [], h, _, _ => by simp at h
  | x :: xs, y :: ys, h, hr, hv => by
    rw [List.zipWith_cons_cons, maskChunk_zero (hr x (List.mem_cons_self x xs)),
      maskChunk_one (hv y (List.mem_cons_self y ys)), Nat.zero_add,
      replace_chunks_set xs ys (by simpa using h)
        (fun c hc => hr c (List.mem_cons_of_mem x hc))
        (fun c hc => hv c (List.mem_cons_of_mem y hc))]

theorem replace_chunks_keep : ∀ (rv vv : List Nat), rv.length = vv.length →
    (∀ c ∈ rv, c < 16) → (∀ c ∈ vv, c < 16) →
    List.zipWith (fun rc vc => maskChunk 1 rc + maskChunk 0 vc) rv vv = rv
  | [], [], _, _, _ => rfl
  | [], _ :: _, h, _, _ => by simp at h
  | _ :: _, [], h, _, _ => by simp at h
  | x :: xs, y :: ys, h, hr, hv => by
    rw [List.zipWith_cons_cons, maskChunk_one (hr x (List.mem_cons_self x xs)),
      maskChunk_zero (hv y (List.mem_cons_self y ys)), Nat.add_zero,
      replace_chunks_keep xs ys (by simpa using h)
        (fun c hc => hr c (List.mem_cons_of_mem x hc))
        (fun c hc => hv c (List.mem_cons_of_mem y hc))]

/-- C5: replace overwrites exactly the value chunks of every row whose key
chunks equal the given key with the given value; the flag and key chunks
of every row are unchanged, and rows whose key does not match keep their
existing value chunks. -/
theorem replace_semantics (state : List Row) (key value : List Nat)
    (hv : ∀ c ∈ value, c < 16)
    (hrows : ∀ r ∈ state, r.key.length = key.length ∧ r.value.length = value.length ∧
      ∀ c ∈ r.value, c < 16) :
    _replace_impl state key value =
      state.map (fun r => if r.key = key then Row.mk r.flag r.key value else r) := by
  unfold _replace_impl
  apply List.map_congr_left
  intro r hr
  obtain ⟨hkl, hvl, hvb⟩ := hrows r hr
  rw [matchSel_eq hkl]
  rcases eq_or_ne r.key key with hrk | hrk
  · rw [if_pos hrk, if_pos hrk]
    have hset := replace_chunks_set r.value value hvl hvb hv
    simp only []
    rw [show (1 : Nat) - 1 = 0 from rfl] at *
    rw [hset]
  · rw [if_neg hrk, if_neg hrk]
    have hkeep := replace_chunks_keep r.value value hvl hvb hv
    simp only []
    rw [show (1 : Nat) - 0 = 1 from rfl] at *
    rw [hkeep]

theorem replace_semantics_witness :
    _replace_impl [Row.mk 1 [2] [7], Row.mk 0 [0] [0], Row.mk 1 [2] [3]] [2] [9] =
      List.map (fun r => if r.key = [2] then Row.mk r.flag r.key [9] else r)
        [Row.mk 1 [2] [7], Row.mk 0 [0] [0], Row.mk 1 [2] [3]] :=
  replace_semantics [Row.mk 1 [2] [7], Row.mk 0 [0] [0], Row.mk 1 [2] [3]] [2] [9]
    (by decide) (by decide)

/-- C8: replace on a table with no row whose key chunks equal the given
key returns a table equal to the input (a no-op on a miss). -/
theorem replace_miss_noop (state : List Row) (key value : List Nat)
    (hv : ∀ c ∈ value, c < 16)
    (hrows : ∀ r ∈ state, r.key ≠ key ∧ r.key.length = key.length ∧
      r.value.length = value.length ∧ ∀ c ∈ r.value, c < 16) :
    _replace_impl state key value = state := by
  unfold _replace_impl
  have hcongr : ∀ r ∈ state,
      (let sel := matchSel r.key key
       Row.mk r.flag r.key
        (List.zipWith (fun rc vc => maskChunk (1 - sel) rc + maskChunk sel vc)
          r.value value)) = r := by
    intro r hr
    obtain ⟨hne, hkl, hvl, hvb⟩ := hrows r hr
    rw [matchSel_eq hkl, if_neg hne]
    have hkeep := replace_chunks_keep r.value value hvl hvb hv
    simp only []
    rw [show (1 : Nat) - 0 = 1 from rfl] at *
    rw [hkeep]
  rw [List.map_congr_left hcongr]
  simp

theorem replace_miss_noop_witness :
    _replace_impl [Row.mk 1 [2] [7]] [3] [1] = [Row.mk 1 [2] [7]] :=
  replace_miss_noop [Row.mk 1 [2] [7]] [3] [1] (by decide) (by decide)

/-! ### Query semantics -/

theorem specSel_cases (r : Row) (key : List Nat) :
    specSel r key = 0 ∨ specSel r key = 1 := by
  unfold specSel
  split
  · exact Or.inr rfl
  · exact Or.inl rfl

theorem sum_matchSel_eq_specFound : ∀ (state : List Row) (key : List Nat),
    (∀ r ∈ state, r.key.length = key.length) →
    (state.map (fun r => matchSel r.key key)).sum = specFound state key
  | [], _, _ => rfl
  | r :: rest, key, h => by
    have hr := h r (List.mem_cons_self r rest)
    have hrec := sum_matchSel_eq_specFound rest key
      (fun x hx => h x (List.mem_cons_of_mem r hx))
    rw [List.map_cons, List.sum_cons, matchSel_eq hr, hrec]
    unfold specFound
    rw [List.filter_cons]
    rcases eq_or_ne r.key key with he | he
    · simp [he, Nat.add_comm]
    · simp [he]

/-- C3: query returns the pair of the number of rows whose key chunks all
equal the given key chunks (regardless of the flag) and the chunk-wise
sum over all rows of the arithmetic masked selection of the row value by
the per-row equality indicator.  The query is a pure function of the
state, so the table is not modified. -/
theorem query_semantics (nv : Nat) (state : List Row) (key : List Nat)
    (hrows : ∀ r ∈ state, r.key.length = key.length ∧ ∀ c ∈ r.value, c < 16) :
    _query_impl nv state key = (specFound state key, specValue nv state key) := by
  unfold _query_impl specValue
  have h1 := sum_matchSel_eq_specFound state key (fun r hr => (hrows r hr).1)
  have h2 : state.map (fun r => r.value.map (fun vc => maskChunk (matchSel r.key key) vc))
      = state.map (fun r => r.value.map (fun vc => masked_select (specSel r key) vc)) := by
    apply List.map_congr_left
    intro r hr
    obtain ⟨hkl, hvb⟩ := hrows r hr
    apply List.map_congr_left
    intro c hc
    have hsel : matchSel r.key key = specSel r key := by
      rw [matchSel_eq hkl]
      rfl
    rw [hsel, maskChunk_arith (specSel_cases r key) (hvb c hc)]
    rfl
  rw [h1, h2]

theorem query_semantics_witness :
    _query_impl 1 [Row.mk 1 [2] [7], Row.mk 0 [0] [0], Row.mk 1 [2] [3]] [2] =
      (specFound [Row.mk 1 [2] [7], Row.mk 0 [0] [0], Row.mk 1 [2] [3]] [2],
       specValue 1 [Row.mk 1 [2] [7], Row.mk 0 [0] [0], Row.mk 1 [2] [3]] [2]) :=
  query_semantics 1 [Row.mk 1 [2] [7], Row.mk 0 [0] [0], Row.mk 1 [2] [3]] [2] (by decide)

/-- C9: on a table with no row whose key chunks equal the encoded key,
query returns found = 0, and the store-level query maps that to None
rather than raising an exception. -/
theorem query_miss_not_found (nv : Nat) (state : List Row) (k : Nat)
    (hrows : ∀ r ∈ state, r.key ≠ encode_key k ∧ r.key.length = (encode_key k).length) :
    (_query_impl nv state (encode_key k)).fst = 0 ∧ db_query nv state k = none := by
  have hsum : (state.map (fun r => matchSel r.key (encode_key k))).sum = 0 := by
    apply List.sum_eq_zero
    intro x hx
    obtain ⟨r, hr, rfl⟩ := List.mem_map.mp hx
    obtain ⟨hne, hkl⟩ := hrows r hr
    rw [matchSel_eq hkl, if_neg hne]
  have hfst : (_query_impl nv state (encode_key k)).fst = 0 := hsum
  constructor
  · exact hfst
  · simp only [db_query]
    rw [if_pos hfst]

theorem query_miss_not_found_witness :
    (_query_impl 8 [Row.mk 1 [0, 0, 0, 0, 0, 0, 0, 2] [0, 0, 0, 0, 0, 0, 0, 7]]
        (encode_key 3)).fst = 0 ∧
      db_query 8 [Row.mk 1 [0, 0, 0, 0, 0, 0, 0, 2] [0, 0, 0, 0, 0, 0, 0, 7]] 3 = none :=
  query_miss_not_found 8 [Row.mk 1 [0, 0, 0, 0, 0, 0, 0, 2] [0, 0, 0, 0, 0, 0, 0, 7]] 3
    (by decide)

/-! ### The chunk codec -/

theorem foldl_add_eq (f : Nat → Nat) : ∀ (l : List Nat) (x : Nat),
    l.foldl (fun a i => a + f i) x = x + (l.map f).sum
  | [], x => by simp
  | i :: is, x => by
    rw [List.foldl_cons, foldl_add_eq f is (x + f i), List.map_cons, List.sum_cons,
      Nat.add_assoc]

theorem decode_nil : decode [] = 0 := rfl

theorem decode_cons (c : Nat) (cs : List Nat) :
    decode (c :: cs) = 16 ^ cs.length * c + decode cs := by
  unfold decode
  rw [foldl_add_eq, foldl_add_eq, Nat.zero_add, Nat.zero_add, List.length_cons,
    List.range_succ, List.map_append, List.sum_append]
  have hcong : ∀ i ∈ List.range cs.length,
      2 ^ (CHUNK_SIZE * i) * (c :: cs).getD (cs.length + 1 - i - 1) 0
        = 2 ^ (CHUNK_SIZE * i) * cs.getD (cs.length - i - 1) 0 := by
    intro i hi
    have hi2 : i < cs.length := List.mem_range.mp hi
    have he : cs.length + 1 - i - 1 = (cs.length - i - 1) + 1 := by omega
    rw [he, List.getD_cons_succ]
  rw [List.map_congr_left hcong]
  have hlast : cs.length + 1 - cs.length - 1 = 0 := by omega
  have h16 : (2 : Nat) ^ (CHUNK_SIZE * cs.length) = 16 ^ cs.length := by
    have : CHUNK_SIZE = 4 := rfl
    rw [this, pow_mul]
    norm_num
  simp only [List.map_cons, List.map_nil, List.sum_cons, List.sum_nil, hlast,
    List.getD_cons_zero, Nat.add_zero, h16]
  rw [Nat.add_comm]

/-! ### The binary digit count -/

theorem bitLenAux_spec : ∀ (fuel : Nat), ∀ n ≤ fuel,
    n < 2 ^ bitLenAux fuel n ∧ ∀ w, n < 2 ^ w → bitLenAux fuel n ≤ w := by
  intro fuel
  induction fuel with
  | zero =>
    intro n hn
    have h0 : n = 0 := by omega
    subst h0
    exact ⟨by simp [bitLenAux], fun w _ => by simp [bitLenAux]⟩
  | succ fuel ih =>
    intro n hn
    match n with
    | 0 => exact ⟨by simp [bitLenAux], fun w _ => by simp [bitLenAux]⟩
    | m + 1 =>
      have hhalf : (m + 1) / 2 ≤ fuel := by omega
      obtain ⟨h1, h2⟩ := ih ((m + 1) / 2) hhalf
      have heq : bitLenAux (fuel + 1) (m + 1) = bitLenAux fuel ((m + 1) / 2) + 1 := rfl
      rw [heq]
      constructor
      · have h3 : 2 ^ (bitLenAux fuel ((m + 1) / 2) + 1)
            = 2 * 2 ^ bitLenAux fuel ((m + 1) / 2) := by
          rw [pow_succ]
          ring
        omega
      · intro w hw
        match w with
        | 0 => omega
        | w2 + 1 =>
          have h4 : 2 ^ (w2 + 1) = 2 * 2 ^ w2 := by
            rw [pow_succ]
            ring
          have h5 : (m + 1) / 2 < 2 ^ w2 := by omega
          have := h2 w2 h5
          omega

theorem bitLen_spec (n : Nat) : n < 2 ^ bitLen n ∧ ∀ w, n < 2 ^ w → bitLen n ≤ w :=
  bitLenAux_spec n n le_rfl

/-! ### binaryRepr under the fitting and overflowing regimes -/

theorem binaryRepr_length (n width : Nat) :
    (binaryRepr n width).length = max width (max 1 (bitLen n)) := by
  simp [binaryRepr]

theorem binaryRepr_of_lt {n width : Nat} (h1 : 0 < width) (h : n < 2 ^ width) :
    binaryRepr n width = (List.range width).map (fun i => n / 2 ^ (width - 1 - i) % 2) := by
  unfold binaryRepr
  have hb : bitLen n ≤ width := (bitLen_spec n).2 width h
  have hmax : max width (max 1 (bitLen n)) = width := by omega
  rw [hmax]

theorem toBlocks_length : ∀ (l : List Nat), (toBlocks l).length = (l.length + 3) / 4
  | [] => rfl
  | [_] => by simp [toBlocks]
  | [_, _] => by simp [toBlocks]
  | [_, _, _] => by simp [toBlocks]
  | a :: b :: c :: d :: rest => by
    have := toBlocks_length rest
    simp only [toBlocks, List.length_cons, this]
    omega

theorem toBlocks_mem : ∀ (l bl : List Nat), bl ∈ toBlocks l →
    bl.length ≤ 4 ∧ ∀ x ∈ bl, x ∈ l
  | [], bl, h => by simp [toBlocks] at h
  | [a], bl, h => by
    simp only [toBlocks, List.mem_singleton] at h
    subst h
    exact ⟨by simp, fun x hx => by simpa using hx⟩
  | [a, b], bl, h => by
    simp only [toBlocks, List.mem_singleton] at h
    subst h
    exact ⟨by simp, fun x hx => by simpa using hx⟩
  | [a, b, c], bl, h => by
    simp only [toBlocks, List.mem_singleton] at h
    subst h
    exact ⟨by simp, fun x hx => by simpa using hx⟩
  | a :: b :: c :: d :: rest, bl, h => by
    simp only [toBlocks, List.mem_cons] at h
    rcases h with rfl | h
    · refine ⟨by simp, fun x hx => ?_⟩
      simp only [List.mem_cons] at hx ⊢
      tauto
    · obtain ⟨hlen, hmem⟩ := toBlocks_mem rest bl h
      refine ⟨hlen, fun x hx => ?_⟩
      have := hmem x hx
      simp only [List.mem_cons]
      tauto

theorem foldlBits_lt : ∀ (l : List Nat) (a : Nat), (∀ b ∈ l, b < 2) →
    l.foldl (fun acc b => 2 * acc + b) a < 2 ^ l.length * (a + 1)
  | [], a, _ => by simp
  | b :: bs, a, h => by
    have hb : b < 2 := h b (List.mem_cons_self b bs)
    have hrec := foldlBits_lt bs (2 * a + b) (fun x hx => h x (List.mem_cons_of_mem b hx))
    have hpow : (2 : Nat) ^ (bs.length + 1) = 2 * 2 ^ bs.length := by
      rw [pow_succ]
      ring
    have hmono : 2 ^ bs.length * (2 * a + b + 1) ≤ 2 ^ bs.length * (2 * (a + 1)) :=
      Nat.mul_le_mul_left _ (by omega)
    simp only [List.foldl_cons, List.length_cons]
    calc bs.foldl (fun acc b => 2 * acc + b) (2 * a + b)
        < 2 ^ bs.length * (2 * a + b + 1) := hrec
      _ ≤ 2 ^ bs.length * (2 * (a + 1)) := hmono
      _ = 2 ^ (bs.length + 1) * (a + 1) := by rw [hpow]; ring

theorem intBase2_lt {bl : List Nat} (h : ∀ b ∈ bl, b < 2) (hlen : bl.length ≤ 4) :
    intBase2 bl < 16 := by
  have h1 := foldlBits_lt bl 0 h
  have h2 : (2 : Nat) ^ bl.length ≤ 2 ^ 4 := Nat.pow_le_pow_right (by omega) hlen
  unfold intBase2
  have h3 : (2 : Nat) ^ 4 = 16 := by norm_num
  omega

theorem binaryRepr_bits (n width : Nat) : ∀ x ∈ binaryRepr n width, x < 2 := by
  intro x hx
  unfold binaryRepr at hx
  obtain ⟨i, -, rfl⟩ := List.mem_map.mp hx
  exact Nat.mod_lt _ (by omega)

theorem encode_chunks_lt (n width : Nat) : ∀ c ∈ encode n width, c < 16 := by
  intro c hc
  unfold encode at hc
  obtain ⟨bl, hbl, rfl⟩ := List.mem_map.mp hc
  obtain ⟨hlen, hmem⟩ := toBlocks_mem _ bl hbl
  exact intBase2_lt (fun b hb => binaryRepr_bits n width b (hmem b hb)) hlen

theorem binaryRepr_four (d : Nat) (hd : d < 16) :
    binaryRepr d 4 = [d / 8 % 2, d / 4 % 2, d / 2 % 2, d % 2] := by
  rw [binaryRepr_of_lt (by omega) (show d < 2 ^ 4 by omega)]
  have hr : List.range 4 = [0, 1, 2, 3] := rfl
  rw [hr]
  simp only [List.map_cons, List.map_nil]
  norm_num

theorem intBase2_four_bits (b : Nat) (hb : b < 16) :
    intBase2 [b / 8 % 2, b / 4 % 2, b / 2 % 2, b % 2] = b := by
  unfold intBase2
  simp only [List.foldl_cons, List.foldl_nil]
  omega

theorem encode_digit (d : Nat) (hd : d < 16) : encode d 4 = [d] := by
  unfold encode
  rw [binaryRepr_four d hd]
  simp only [toBlocks, List.map_cons, List.map_nil]
  rw [intBase2_four_bits d hd]

theorem binaryRepr_split (m d r : Nat) (hm : 0 < m) (hd : d < 16) (hr : r < 16 ^ m) :
    binaryRepr (16 ^ m * d + r) (4 * (m + 1)) = binaryRepr d 4 ++ binaryRepr r (4 * m) := by
  have h2p : ∀ t : Nat, (16 : Nat) ^ t = 2 ^ (4 * t) := by
    intro t
    rw [pow_mul]
    norm_num
  have hrm : r < 2 ^ (4 * m) := by rw [← h2p]; exact hr
  have hn : 16 ^ m * d + r < 2 ^ (4 * (m + 1)) := by
    have : 16 ^ (m + 1) = 16 ^ m * 16 := pow_succ 16 m
    have hle : 16 ^ m * d + r < 16 ^ m * 16 := by nlinarith [pow_pos (show (0:Nat) < 16 by omega) m]
    rw [← h2p]
    omega
  rw [binaryRepr_of_lt (by omega) hn, binaryRepr_of_lt (by omega) (show d < 2 ^ 4 by omega),
    binaryRepr_of_lt (by omega) hrm]
  have hsplit : 4 * (m + 1) = 4 + 4 * m := by ring
  rw [hsplit, List.range_add, List.map_append, List.map_map]
  congr 1
  · apply List.map_congr_left
    intro i hi
    have hi4 : i < 4 := List.mem_range.mp hi
    have he : 4 + 4 * m - 1 - i = 4 * m + (4 - 1 - i) := by omega
    rw [he, pow_add, ← Nat.div_div_eq_div_mul]
    have hdq : (16 ^ m * d + r) / 2 ^ (4 * m) = d := by
      rw [h2p m, Nat.mul_add_div (Nat.pos_pow_of_pos _ (by omega)),
        Nat.div_eq_of_lt hrm, Nat.add_zero]
    rw [hdq]
  · apply List.map_congr_left
    intro j hj
    have hjm : j < 4 * m := List.mem_range.mp hj
    simp only [Function.comp]
    have he : 4 + 4 * m - 1 - (4 + j) = 4 * m - 1 - j := by omega
    rw [he]
    have hsp : 16 ^ m * d = 2 ^ (4 * m - 1 - j) * (2 ^ (j + 1) * d) := by
      rw [← Nat.mul_assoc, ← pow_add, h2p m]
      congr 2
      omega
    rw [hsp, Nat.mul_add_div (Nat.pos_pow_of_pos _ (by omega))]
    have h2t : 2 ^ (j + 1) * d = 2 * (2 ^ j * d) := by
      rw [pow_succ]
      ring
    omega

theorem encode_spec : ∀ (m : Nat), 0 < m → ∀ n, n < 16 ^ m →
    decode (encode n (4 * m)) = n ∧ (encode n (4 * m)).length = m := by
  intro m
  induction m with
  | zero => omega
  | succ m ih =>
    intro _ n hn
    rcases Nat.eq_zero_or_pos m with hm0 | hm
    · subst hm0
      have hn16 : n < 16 := by simpa using hn
      have he : encode n (4 * 1) = [n] := encode_digit n hn16
      rw [show 4 * 1 = 4 from rfl] at *
      rw [he]
      refine ⟨?_, rfl⟩
      rw [decode_cons, decode_nil]
      simp
    · have hd : n / 16 ^ m < 16 := by
        rw [Nat.div_lt_iff_lt_mul (Nat.pos_pow_of_pos _ (by omega))]
        calc n < 16 ^ (m + 1) := hn
          _ = 16 ^ m * 16 := pow_succ 16 m
          _ ≤ 16 * 16 ^ m := by ring_nf; omega
      have hr : n % 16 ^ m < 16 ^ m := Nat.mod_lt _ (Nat.pos_pow_of_pos _ (by omega))
      have hnr : 16 ^ m * (n / 16 ^ m) + n % 16 ^ m = n := Nat.div_add_mod n (16 ^ m)
      obtain ⟨ihd, ihl⟩ := ih hm (n % 16 ^ m) hr
      have hbr := binaryRepr_split m (n / 16 ^ m) (n % 16 ^ m) hm hd hr
      rw [hnr] at hbr
      unfold encode
      rw [hbr, binaryRepr_four (n / 16 ^ m) hd]
      have hcons : [n / 16 ^ m / 8 % 2, n / 16 ^ m / 4 % 2, n / 16 ^ m / 2 % 2,
            n / 16 ^ m % 2] ++ binaryRepr (n % 16 ^ m) (4 * m)
          = n / 16 ^ m / 8 % 2 :: n / 16 ^ m / 4 % 2 :: n / 16 ^ m / 2 % 2 ::
            n / 16 ^ m % 2 :: binaryRepr (n % 16 ^ m) (4 * m) := rfl
      rw [hcons]
      simp only [toBlocks, List.map_cons]
      rw [intBase2_four_bits (n / 16 ^ m) hd]
      have htail : (toBlocks (binaryRepr (n % 16 ^ m) (4 * m))).map intBase2
          = encode (n % 16 ^ m) (4 * m) := rfl
      rw [htail]
      constructor
      · rw [decode_cons, ihl, ihd, hnr]
      · rw [List.length_cons, ihl]

/-- C6: for every width divisible by CHUNK_SIZE and every n below 2 to the
width, decoding the encoding of n gives back n (the codec round-trip law). -/
theorem decode_encode_roundtrip (n width : Nat) (hw : width % CHUNK_SIZE = 0)
    (hn : n < 2 ^ width) : decode (encode n width) = n := by
  have hw4 : width % 4 = 0 := hw
  obtain ⟨m, rfl⟩ : ∃ m, width = 4 * m := ⟨width / 4, by omega⟩
  rcases Nat.eq_zero_or_pos m with hm0 | hm
  · subst hm0
    have hn0 : n = 0 := by
      simp at hn
      omega
    subst hn0
    rfl
  · have h16 : (2 : Nat) ^ (4 * m) = 16 ^ m := by
      rw [pow_mul]
      norm_num
    exact (encode_spec m hm n (h16 ▸ hn)).1

theorem decode_encode_roundtrip_witness :
    8 % CHUNK_SIZE = 0 ∧ 171 < 2 ^ 8 ∧ decode (encode 171 8) = 171 :=
  ⟨by decide, by decide, decode_encode_roundtrip 171 8 (by decide) (by decide)⟩

/-- C10 counterexample: encode(16, 4) takes an out-of-range input
(16 is not below 2 to the 4) and does not fail: np.binary_repr does not
truncate to the requested width, so encode returns the well-defined but
malformed two-chunk list [8, 0] (decoding to 128), instead of raising an
OutOfRange error. -/
theorem encode_out_of_range_cex :
    encode 16 4 = [8, 0] ∧ (encode 16 4).length ≠ 4 / CHUNK_SIZE ∧
      decode (encode 16 4) = 128 := by
  decide

/-- C10 (amended): encode performs no range check: for every n at or above
2 to the width (width divisible by CHUNK_SIZE), it returns a defined chunk
list that is strictly longer than width / CHUNK_SIZE chunks, rather than
raising an OutOfRange error at the codec boundary. -/
theorem encode_out_of_range_length (n width : Nat) (hw : width % CHUNK_SIZE = 0)
    (hn : 2 ^ width ≤ n) :
    width / CHUNK_SIZE < (encode n width).length := by
  have hlen : (encode n width).length = ((binaryRepr n width).length + 3) / 4 := by
    unfold encode
    rw [List.length_map, toBlocks_length]
  have hbl : width < bitLen n := by
    by_contra hcon
    push_neg at hcon
    have h1 := (bitLen_spec n).1
    have h2 : (2 : Nat) ^ bitLen n ≤ 2 ^ width := Nat.pow_le_pow_right (by omega) hcon
    omega
  have hL : (binaryRepr n width).length = bitLen n := by
    rw [binaryRepr_length]
    omega
  have hcs : CHUNK_SIZE = 4 := rfl
  rw [hlen, hL, hcs]
  rw [hcs] at hw
  omega

theorem encode_out_of_range_length_witness :
    4 % CHUNK_SIZE = 0 ∧ 2 ^ 4 ≤ 16 ∧ 4 / CHUNK_SIZE < (encode 16 4).length :=
  ⟨by decide, by decide, encode_out_of_range_length 16 4 (by decide) (by decide)⟩

/-! ### Insert followed by query on a fresh table -/

theorem zipWith_add_zero : ∀ (l : List Nat),
    List.zipWith (fun a b => a + b) l (List.replicate l.length 0) = l
  | [] => rfl
  | x :: xs => by
    rw [List.length_cons, List.replicate_succ, List.zipWith_cons_cons, Nat.add_zero,
      zipWith_add_zero xs]

theorem sumRows_zeros (nv : Nat) : ∀ (c : Nat),
    sumRows nv (List.replicate c (List.replicate nv 0)) = List.replicate nv 0
  | 0 => rfl
  | c + 1 => by
    show List.zipWith (fun a b => a + b) (List.replicate nv 0)
      (sumRows nv (List.replicate c (List.replicate nv 0))) = List.replicate nv 0
    rw [sumRows_zeros nv c]
    have h := zipWith_add_zero (List.replicate nv 0)
    rw [List.length_replicate] at h
    exact h

theorem map_maskChunk_one {V : List Nat} (hV : ∀ c ∈ V, c < 16) :
    V.map (fun vc => maskChunk 1 vc) = V := by
  calc V.map (fun vc => maskChunk 1 vc)
      = V.map (fun vc => vc) :=
        List.map_congr_left (fun c hc => maskChunk_one (hV c hc))
    _ = V := by simp

theorem map_maskChunk_zeros {s : Nat} (hs : s = 0 ∨ s = 1) (nv : Nat) :
    (List.replicate nv 0).map (fun vc => maskChunk s vc) = List.replicate nv 0 := by
  rw [List.map_replicate, maskChunk_sel_zero hs]

theorem insert_empty (K V : List Nat) (c : Nat)
    (hK : ∀ x ∈ K, x < 16) (hV : ∀ x ∈ V, x < 16) :
    _insert_impl (emptyState (c + 1) K.length V.length) K V =
      Row.mk 1 K V :: emptyState c K.length V.length := by
  unfold _insert_impl emptyState
  rw [List.replicate_succ, List.map_cons]
  have hfl : (zeroRow K.length V.length).flag = 0 := rfl
  have hmapfl : (List.replicate c (zeroRow K.length V.length)).map Row.flag
      = List.replicate c 0 := by
    rw [List.map_replicate]
    rfl
  rw [hfl, hmapfl, insertSelect_zero_head, List.length_replicate, List.zipWith_cons_cons]
  congr 1
  · exact insertRowUpd_one hK hV rfl rfl rfl
  · have hlen : (List.replicate c (zeroRow K.length V.length)).length = c :=
      List.length_replicate c _
    have h := insert_rows_unchanged hK hV (List.replicate c (zeroRow K.length V.length))
      (fun r hr => by
        have hez : r = zeroRow K.length V.length := List.eq_of_mem_replicate hr
        subst hez
        exact ⟨by simp [zeroRow], by simp [zeroRow]⟩)
    rw [hlen] at h
    exact h

theorem query_inserted (K V : List Nat) (c : Nat) (hV : ∀ x ∈ V, x < 16) :
    (_query_impl V.length (Row.mk 1 K V :: emptyState c K.length V.length) K).fst ≠ 0 ∧
      (_query_impl V.length (Row.mk 1 K V :: emptyState c K.length V.length) K).snd = V := by
  constructor
  · have h1 : (_query_impl V.length (Row.mk 1 K V :: emptyState c K.length V.length) K).fst
        = matchSel K K +
          ((emptyState c K.length V.length).map (fun r => matchSel r.key K)).sum := rfl
    rw [h1, matchSel_self]
    omega
  · have h2 : (_query_impl V.length (Row.mk 1 K V :: emptyState c K.length V.length) K).snd
        = List.zipWith (fun a b => a + b) (V.map (fun vc => maskChunk (matchSel K K) vc))
            (sumRows V.length ((emptyState c K.length V.length).map
              (fun r => r.value.map (fun vc => maskChunk (matchSel r.key K) vc)))) := rfl
    rw [h2, matchSel_self, map_maskChunk_one hV]
    have h3 : (emptyState c K.length V.length).map
        (fun r => r.value.map (fun vc => maskChunk (matchSel r.key K) vc))
        = List.replicate c (List.replicate V.length 0) := by
      unfold emptyState
      rw [List.map_replicate]
      congr 1
      show (List.replicate V.length 0).map
        (fun vc => maskChunk (matchSel (List.replicate K.length 0) K) vc)
        = List.replicate V.length 0
      exact map_maskChunk_zeros (matchSel_cases _ _) V.length
    rw [h3, sumRows_zeros]
    exact zipWith_add_zero V

/-- C2 (amended): on an empty table of capacity at least 1, inserting an
in-range key and value and then querying the key returns the value with a
NONZERO found count.  (found is 1 for every key whose encoding is not
all-zero; for key 0 the remaining all-zero free rows also match, so found
equals the capacity — see the counterexample.) -/
theorem insert_then_query (cap k v : Nat) (hcap : 0 < cap)
    (hk : k < 2 ^ KEY_SIZE) (hv : v < 2 ^ VALUE_SIZE) :
    (_query_impl 8 (db_insert (emptyState cap 8 8) k v) (encode_key k)).fst ≠ 0 ∧
      db_query 8 (db_insert (emptyState cap 8 8) k v) k = some v := by
  obtain ⟨c, rfl⟩ : ∃ c, cap = c + 1 := ⟨cap - 1, by omega⟩
  have hkcast : (2 : Nat) ^ KEY_SIZE = 16 ^ 8 := by norm_num [KEY_SIZE]
  have hvcast : (2 : Nat) ^ VALUE_SIZE = 16 ^ 8 := by norm_num [VALUE_SIZE]
  have hk16 : k < 16 ^ 8 := hkcast ▸ hk
  have hv16 : v < 16 ^ 8 := hvcast ▸ hv
  have hKlen : (encode_key k).length = 8 := by
    have h8 : encode_key k = encode k (4 * 8) := rfl
    rw [h8]
    exact (encode_spec 8 (by omega) k hk16).2
  have hVlen : (encode_value v).length = 8 := by
    have h8 : encode_value v = encode v (4 * 8) := rfl
    rw [h8]
    exact (encode_spec 8 (by omega) v hv16).2
  have hKb : ∀ x ∈ encode_key k, x < 16 := encode_chunks_lt k KEY_SIZE
  have hVb : ∀ x ∈ encode_value v, x < 16 := encode_chunks_lt v VALUE_SIZE
  have hins := insert_empty (encode_key k) (encode_value v) c hKb hVb
  rw [hKlen, hVlen] at hins
  have hquery := query_inserted (encode_key k) (encode_value v) c hVb
  rw [hKlen, hVlen] at hquery
  have hstate : db_insert (emptyState (c + 1) 8 8) k v
      = Row.mk 1 (encode_key k) (encode_value v) :: emptyState c 8 8 := hins
  rw [hstate]
  obtain ⟨hq1, hq2⟩ := hquery
  refine ⟨hq1, ?_⟩
  have hdec : decode (encode_value v) = v := by
    have h8 : encode_value v = encode v (4 * 8) := rfl
    rw [h8]
    exact (encode_spec 8 (by omega) v hv16).1
  simp only [db_query]
  rw [if_neg hq1, hq2, hdec]

theorem insert_then_query_witness :
    (_query_impl 8 (db_insert (emptyState 5 8 8) 3 4) (encode_key 3)).fst ≠ 0 ∧
      db_query 8 (db_insert (emptyState 5 8 8) 3 4) 3 = some 4 :=
  insert_then_query 5 3 4 (by decide) (by decide) (by decide)

/-- C2 counterexample: inserting key 0 with value 4 into the empty
capacity-5 table and querying key 0 returns found = 5, not found = 1: the
encoded key 0 is all-zero chunks, so the four remaining free rows (whose
key columns are still zero) also match the query. -/
theorem insert_then_query_found_cex :
    (_query_impl 8 (db_insert (emptyState 5 8 8) 0 4) (encode_key 0)).fst = 5 ∧
      (_query_impl 8 (db_insert (emptyState 5 8 8) 0 4) (encode_key 0)).fst ≠ 1 := by
  decide
